import Mathlib

/-!
Verification of the extraction core of ShipShape (`src/ShipShape.py`).

The Python module `ShipShape.py` defines `EDIExtractor` with three static
methods: `extract_data` (a regex scan over tag-delimited text producing a
list of records), `save_to_csv` (CSV serialisation via `csv.DictWriter`
with `QUOTE_MINIMAL`), and `extract_from_file` (read a file and delegate
to `extract_data`, wrapping read failures).  The GUI class
`EDIExtractorApp` is presentation plumbing; the only piece of it modelled
here is its `save_to_csv` handler, which creates missing output
directories before calling the core writer.

Text is embedded as `List Char`.  The regular-expression operations used
by the source are embedded exactly at the fragment the source needs:
every pattern has the literal shape `open (body) close` where `body` is
either `([\s\S]*?)` (any character, lazily) or `(.*?)` (any character
except newline, lazily).  `scanTo p cl s` is the lazy scan for the
closing tag `cl` consuming only characters satisfying `p`; `searchSplit`
is leftmost-match search (`re.search` / one step of `re.finditer`);
`findIter` is `re.finditer`, restarting after each match.
-/

set_option maxRecDepth 20000

namespace ShipShape

/-- One extracted record: the dictionary
`{'delivery_id': ..., 'product_service_id': ..., 'serial_number': ...}`
built by `EDIExtractor.extract_data`. -/
structure Record where
  delivery_id : List Char
  product_service_id : List Char
  serial_number : List Char
deriving DecidableEq, Repr

instance : Inhabited Record := ⟨⟨[], [], []⟩⟩

/-- Opening tag of a line-group block (`<ShipConfirmLine>`). -/
def shipOpen : List Char := "<ShipConfirmLine>".data

/-- Closing tag of a line-group block (`</ShipConfirmLine>`). -/
def shipClose : List Char := "</ShipConfirmLine>".data

/-- Opening tag of the delivery-id pair (`<delivery_id>`). -/
def deliveryOpen : List Char := "<delivery_id>".data

/-- Closing tag of the delivery-id pair (`</delivery_id>`). -/
def deliveryClose : List Char := "</delivery_id>".data

/-- Opening tag of the product/service-id pair (`<ProductServiceId>`). -/
def productOpen : List Char := "<ProductServiceId>".data

/-- Closing tag of the product/service-id pair (`</ProductServiceId>`). -/
def productClose : List Char := "</ProductServiceId>".data

/-- Opening tag of a serial sub-group (`<ShipConfirmSerials>`). -/
def serialsOpen : List Char := "<ShipConfirmSerials>".data

/-- Closing tag of a serial sub-group (`</ShipConfirmSerials>`). -/
def serialsClose : List Char := "</ShipConfirmSerials>".data

/-- Opening tag of the serial-number pair (`<serial_number>`). -/
def serialOpen : List Char := "<serial_number>".data

/-- Closing tag of the serial-number pair (`</serial_number>`). -/
def serialClose : List Char := "</serial_number>".data

/-- The character class of Python's `.` metacharacter without `re.DOTALL`:
every character except the newline.  The three inner patterns
(`<delivery_id>(.*?)</delivery_id>`, `<ProductServiceId>(.*?)</ProductServiceId>`,
`<serial_number>(.*?)</serial_number>`) use it. -/
def dotP (c : Char) : Bool := c ≠ '\n'

/-- The character class `[\s\S]`: every character.  The line-group and
serial-group patterns use it. -/
def anyP (_ : Char) : Bool := true

/-- Lazy scan for the closing tag: `scanTo p cl s` consumes characters of
`s` satisfying `p` until the first position where `cl` is a prefix, and
returns (consumed characters, remainder after `cl`).  `none` when a
character failing `p` or the end of the input is reached first.  This is
the backtracking behaviour of the lazy group `(...*?)` followed by the
literal `cl` at a fixed start position. -/
def scanTo (p : Char → Bool) (cl : List Char) : List Char → Option (List Char × List Char)
  | [] => if cl.isPrefixOf ([] : List Char) then some ([], []) else none
  | ch :: t =>
    if cl.isPrefixOf (ch :: t) then some ([], (ch :: t).drop cl.length)
    else if p ch then (scanTo p cl t).map (fun pr => (ch :: pr.1, pr.2)) else none

/-- Leftmost match of the pattern `open (body) close` in `s`
(`re.search`, also one step of `re.finditer`): returns
(text before the match, the group `body`, text after the match). -/
def searchSplit (p : Char → Bool) (o cl : List Char) :
    List Char → Option (List Char × List Char × List Char)
  | [] => none
  | ch :: t =>
    match (if o.isPrefixOf (ch :: t) then scanTo p cl ((ch :: t).drop o.length) else none) with
    | some (body, rest) => some ([], body, rest)
    | none => (searchSplit p o cl t).map (fun r => (ch :: r.1, r.2.1, r.2.2))

/-- Python `re.search(r'open(body)close', s)` returning `group(1)`:
the body of the leftmost match, or `none`. -/
def searchTag (p : Char → Bool) (o cl : List Char) (s : List Char) : Option (List Char) :=
  (searchSplit p o cl s).map (fun r => r.2.1)

/-- Index of the first occurrence of `pat` in `s` (`str.find`-like);
used only to state side conditions about occurrences. -/
def findSub (pat : List Char) : List Char → Option Nat
  | [] => if pat.isPrefixOf ([] : List Char) then some 0 else none
  | ch :: t => if pat.isPrefixOf (ch :: t) then some 0 else (findSub pat t).map (· + 1)

/-- Fuelled worker for `findIter`.  Each match consumes at least one
character, so fuel `s.length` never runs out (proved below as the
recurrence `findIter_eq`). -/
def findIterAux (p : Char → Bool) (o cl : List Char) : Nat → List Char → List (List Char)
  | 0, _ => []
  | n + 1, s =>
    match searchSplit p o cl s with
    | none => []
    | some (_, body, rest) => body :: findIterAux p o cl n rest

/-- Python `re.finditer(r'open(body)close', s)` collecting `group(1)` of
every non-overlapping match, left to right, restarting after each
match. -/
def findIter (p : Char → Bool) (o cl : List Char) (s : List Char) : List (List Char) :=
  findIterAux p o cl s.length s

/-- Body of the `for match in ship_confirm_pattern.finditer(content)` loop
of `EDIExtractor.extract_data` (lines 55-90): extract `delivery_id` and
`ProductServiceId` with `re.search`, iterate over the
`ShipConfirmSerials` blocks appending one record per block, and append a
single record with an empty serial number when no serials block was
found. -/
def extractStep (results : List Record) (line_block : List Char) : List Record :=
  let delivery_id := (searchTag dotP deliveryOpen deliveryClose line_block).getD []
  let product_service_id := (searchTag dotP productOpen productClose line_block).getD []
  let serialsBlocks := findIter anyP serialsOpen serialsClose line_block
  let results1 := serialsBlocks.foldl (fun rs serials_block =>
    rs ++ [{ delivery_id := delivery_id, product_service_id := product_service_id,
             serial_number := (searchTag dotP serialOpen serialClose serials_block).getD [] }])
    results
  if serialsBlocks.isEmpty then
    results1 ++ [{ delivery_id := delivery_id, product_service_id := product_service_id,
                   serial_number := [] }]
  else results1

/-- `EDIExtractor.extract_data` (lines 41-92): scan the content for
`<ShipConfirmLine>...</ShipConfirmLine>` blocks and run `extractStep` on
each, accumulating the `results` list. -/
def extract_data (content : List Char) : List Record :=
  (findIter anyP shipOpen shipClose content).foldl extractStep []

/-- The `delivery_id` extracted from one line block (line 59-60):
`re.search(r'<delivery_id>(.*?)</delivery_id>', line_block)`, empty
string when there is no match. -/
def blockDeliveryId (line_block : List Char) : List Char :=
  (searchTag dotP deliveryOpen deliveryClose line_block).getD []

/-- The `product_service_id` extracted from one line block (lines 63-64). -/
def blockProductServiceId (line_block : List Char) : List Char :=
  (searchTag dotP productOpen productClose line_block).getD []

/-- The serial sub-group bodies of one line block (lines 67-70):
`serials_pattern.finditer(line_block)`. -/
def serialGroups (line_block : List Char) : List (List Char) :=
  findIter anyP serialsOpen serialsClose line_block

/-- The serial number extracted from one serial sub-group (lines 75-76). -/
def groupSerialNumber (serials_block : List Char) : List Char :=
  (searchTag dotP serialOpen serialClose serials_block).getD []

/-- The records one line block contributes: one per serial sub-group, or
a single record with an empty serial number when the block has none.
`extractStep results b = results ++ extractRecordsFromBlock b` is proved
below. -/
def extractRecordsFromBlock (line_block : List Char) : List Record :=
  if (serialGroups line_block).isEmpty then
    [{ delivery_id := blockDeliveryId line_block,
       product_service_id := blockProductServiceId line_block, serial_number := [] }]
  else
    (serialGroups line_block).map (fun serials_block =>
      { delivery_id := blockDeliveryId line_block,
        product_service_id := blockProductServiceId line_block,
        serial_number := groupSerialNumber serials_block })

/-- Fuelled worker for `lastMatchEnd`. -/
def lastMatchEndAux (p : Char → Bool) (o cl : List Char) : Nat → List Char → Nat
  | 0, _ => 0
  | n + 1, s =>
    match searchSplit p o cl s with
    | none => 0
    | some (pre, body, rest) =>
      pre.length + o.length + body.length + cl.length + lastMatchEndAux p o cl n rest

/-- End position (character index) of the last match of the pattern
`open (body) close` in `s`; `0` when there is no match.  Text at or after
this index is never part of a match, so it is where `re.finditer` stops
producing matches. -/
def lastMatchEnd (p : Char → Bool) (o cl : List Char) (s : List Char) : Nat :=
  lastMatchEndAux p o cl s.length s

/-! ### CSV serialisation (`EDIExtractor.save_to_csv`, lines 94-109)

`csv.DictWriter(csvfile, fieldnames, delimiter=',', quotechar='"',
quoting=csv.QUOTE_MINIMAL)` with the default `doublequote=True` and
`lineterminator='\r\n'`: a field is quoted exactly when it contains the
delimiter, the quote character, or a line-terminator character, and an
embedded quote character is doubled.  `writeTableText` is the full text
the writer produces: the header row followed by one row per record. -/

/-- QUOTE_MINIMAL test: quote a field iff it contains `,`, `"`, `\r` or `\n`. -/
def needsQuoting (f : List Char) : Bool :=
  f.any (fun ch => ch = ',' || ch = '"' || ch = '\r' || ch = '\n')

/-- Double every embedded quote character (`doublequote=True`). -/
def escapeQuotes (f : List Char) : List Char :=
  f.flatMap (fun ch => if ch = '"' then ['"', '"'] else [ch])

/-- Render one field, quoting only when necessary. -/
def quoteField (f : List Char) : List Char :=
  if needsQuoting f then '"' :: (escapeQuotes f ++ ['"']) else f

/-- Fields of a row joined by the delimiter `,`. -/
def formatRowBody : List (List Char) → List Char
  | [] => []
  | [f] => quoteField f
  | f :: f2 :: fs => quoteField f ++ ',' :: formatRowBody (f2 :: fs)

/-- One CSV row: delimiter-joined fields plus the `\r\n` terminator. -/
def formatRow (fields : List (List Char)) : List Char :=
  formatRowBody fields ++ ['\r', '\n']

/-- The fixed `fieldnames` header (line 103). -/
def csvHeader : List (List Char) :=
  ["delivery_id".data, "product_service_id".data, "serial_number".data]

/-- The three fields of a record, in header order. -/
def recordFields (r : Record) : List (List Char) :=
  [r.delivery_id, r.product_service_id, r.serial_number]

/-- The complete text `EDIExtractor.save_to_csv` writes to the
destination: `writer.writeheader()` then `writer.writerows(results)`. -/
def writeTableText (results : List Record) : List Char :=
  formatRow csvHeader ++ (results.map (fun r => formatRow (recordFields r))).flatten

/-! ### CSV re-parsing

Modelled from the spec: the spec's round-trip property re-parses "the
produced delimited file" under the standard minimal-quoting rule (§4.1,
§6: fields quoted when they contain the delimiter, a quote character, or
a newline; embedded quote characters doubled).  The reader is not part of
the repository, so the parser below follows that format description:
a quoted field consumes up to the closing quote, un-doubling `""`; an
unquoted field stops at a delimiter or line terminator; rows end at
`\r\n` or at the end of the input. -/

/-- Body of a quoted field, after the opening quote: stop at the closing
quote, reading a doubled `""` as one embedded quote character.  Returns
the field and the text after the closing quote. -/
def parseQuotedBody : List Char → Option (List Char × List Char)
  | [] => none
  | ch :: t =>
    if ch = '"' then
      match t with
      | [] => some ([], [])
      | ch2 :: t2 =>
        if ch2 = '"' then (parseQuotedBody t2).map (fun pr => ('"' :: pr.1, pr.2))
        else some ([], t)
    else (parseQuotedBody t).map (fun pr => (ch :: pr.1, pr.2))

/-- An unquoted field: everything up to the next `,`, `\r` or `\n` (or
the end of the input). -/
def parseUnquoted : List Char → List Char × List Char
  | [] => ([], [])
  | ch :: t =>
    if ch = ',' ∨ ch = '\r' ∨ ch = '\n' then ([], ch :: t)
    else
      let pr := parseUnquoted t
      (ch :: pr.1, pr.2)

/-- One field: quoted when it starts with a quote character, unquoted
otherwise. -/
def parseField : List Char → Option (List Char × List Char)
  | [] => some ([], [])
  | ch :: t => if ch = '"' then parseQuotedBody t else some (parseUnquoted (ch :: t))

/-- Fuelled worker for `parseRow`: fields separated by `,`, row ended by
`\r\n` or the end of the input. -/
def parseRowAux : Nat → List Char → Option (List (List Char) × List Char)
  | 0, _ => none
  | n + 1, s =>
    match parseField s with
    | none => none
    | some (f, rest) =>
      match rest with
      | ',' :: t => (parseRowAux n t).map (fun pr => (f :: pr.1, pr.2))
      | '\r' :: '\n' :: t => some ([f], t)
      | [] => some ([f], [])
      | _ => none

/-- One CSV row: the list of its fields and the remaining text. -/
def parseRow (s : List Char) : Option (List (List Char) × List Char) :=
  parseRowAux (s.length + 1) s

/-- Fuelled worker for `parseCsv`. -/
def parseCsvAux : Nat → List Char → Option (List (List (List Char)))
  | _, [] => some []
  | 0, _ :: _ => none
  | n + 1, ch :: t =>
    match parseRow (ch :: t) with
    | none => none
    | some (fs, rest) => (parseCsvAux n rest).map (fun rows => fs :: rows)

/-- Parse a whole CSV text into its rows of fields. -/
def parseCsv (s : List Char) : Option (List (List (List Char))) :=
  parseCsvAux s.length s

/-! ### Filesystem effects (shallow model)

`save_to_csv` opens the destination with `open(output_file, 'w', ...)`,
which in Python fails when the parent directory does not exist and
overwrites an existing file otherwise.  The GUI handler
`EDIExtractorApp.save_to_csv` (lines 339-345) first runs
`os.makedirs(output_dir)` when `os.path.dirname(output_file)` is
non-empty and does not exist, then calls the core writer.  The
filesystem is modelled as the set of existing directories and the
name-to-content map of files; paths are lists of components. -/

/-- A filesystem path, as its list of components. -/
abbrev FilePathM := List String

/-- Shallow filesystem state: existing directories and files. -/
structure FileSys where
  dirs : List FilePathM
  files : List (FilePathM × List Char)
deriving DecidableEq, Repr

/-- `os.path.dirname`: the path without its last component. -/
def parentDir (p : FilePathM) : FilePathM := p.dropLast

/-- `os.makedirs(d)`: create `d` and every missing ancestor.  Membership
in `dirs` is what matters, so ancestors are appended without
deduplication. -/
def makedirs (fs : FileSys) (d : FilePathM) : FileSys :=
  { fs with dirs := fs.dirs ++ d.inits }

/-- Overwrite (or create) the file at `p` with content `c`. -/
def setFile (files : List (FilePathM × List Char)) (p : FilePathM) (c : List Char) :
    List (FilePathM × List Char) :=
  files.filter (fun e => !(decide (e.1 = p))) ++ [(p, c)]

/-- Content of the file at `p`, if present. -/
def lookupFile (fs : FileSys) (p : FilePathM) : Option (List Char) :=
  (fs.files.find? (fun e => decide (e.1 = p))).map (fun e => e.2)

/-- Failure of the destination write: the parent directory of the
destination path does not exist, so `open(output_file, 'w')` raises.
The spec calls this taxonomy `DestinationWriteError`. -/
inductive DestinationWriteError where
  | parentMissing (path : FilePathM)
deriving DecidableEq, Repr

/-- `EDIExtractor.save_to_csv(results, output_file)` (lines 94-109) over
the shallow filesystem: open the destination for writing — which
requires the parent directory to exist (a path with no parent writes to
the current directory) — and write `writeTableText results`.  It does
not create any directory. -/
def save_to_csv (fs : FileSys) (results : List Record) (output_file : FilePathM) :
    Except DestinationWriteError FileSys :=
  if parentDir output_file = [] ∨ parentDir output_file ∈ fs.dirs then
    Except.ok { fs with files := setFile fs.files output_file (writeTableText results) }
  else Except.error (DestinationWriteError.parentMissing output_file)

/-- The GUI handler `EDIExtractorApp.save_to_csv` (lines 326-357), at the
part that touches the filesystem (lines 339-345): when
`os.path.dirname(output_file)` is non-empty and does not exist, run
`os.makedirs` on it, then call `EDIExtractor.save_to_csv`. -/
def app_save_to_csv (fs : FileSys) (results : List Record) (output_file : FilePathM) :
    Except DestinationWriteError FileSys :=
  let output_dir := parentDir output_file
  let fs1 := if output_dir ≠ [] ∧ output_dir ∉ fs.dirs then makedirs fs output_dir else fs
  save_to_csv fs1 results output_file

/-! ### Reading the source file (`EDIExtractor.extract_from_file`, lines 23-38)

The method opens the path as UTF-8 text, reads it all, and calls
`extract_data`; any exception of the read (missing path, unreadable
file, undecodable bytes) is re-raised carrying the path and the
original cause.  The outcome of the read is an input of the model, since
file IO is external to the extraction core. -/

/-- The error `extract_from_file` raises on a read or decode failure,
carrying the path and the underlying cause (the spec's
`SourceReadError`). -/
structure SourceReadError where
  path : List Char
  cause : List Char
deriving DecidableEq, Repr

/-- Outcome of `open(filename, 'r', encoding='utf-8').read()`: the full
decoded text, or a failure with its cause. -/
inductive ReadResult where
  | ok (content : List Char)
  | failure (cause : List Char)
deriving DecidableEq, Repr

/-- `EDIExtractor.extract_from_file` (lines 23-38): on a successful read,
delegate to `extract_data`; on any read failure, fail with the path and
the cause. -/
def extract_from_file (filename : List Char) (r : ReadResult) :
    Except SourceReadError (List Record) :=
  match r with
  | ReadResult.ok content => Except.ok (extract_data content)
  | ReadResult.failure cause => Except.error ⟨filename, cause⟩

/-- Side condition for the matching statements of claim C4: the closing
tag first occurs in `text ++ cl` at the very end, and the opening tag
does not occur in `o ++ text ++ cl` after position `0`.  It holds of any
`text` that mentions none of the four tag names. -/
def isolatedSpan (o cl text : List Char) : Prop :=
  findSub cl (text ++ cl) = some text.length ∧
  findSub o (List.drop 1 (o ++ text ++ cl)) = none

instance (o cl text : List Char) : Decidable (isolatedSpan o cl text) :=
  inferInstanceAs (Decidable (findSub cl (text ++ cl) = some text.length ∧
    findSub o (List.drop 1 (o ++ text ++ cl)) = none))

/-! ### Concrete inputs used by witnesses and counterexamples -/

/-- A document with one line-group holding three serial sub-groups
(serials `A`, `B`, `C`), delivery id `D1`, product id `P1` — the spec's
three-serials test vector. -/
def exDoc1 : List Char :=
  ("<ShipConfirmLine><delivery_id>D1</delivery_id><ProductServiceId>P1</ProductServiceId>" ++
   "<ShipConfirmSerials><serial_number>A</serial_number></ShipConfirmSerials>" ++
   "<ShipConfirmSerials><serial_number>B</serial_number></ShipConfirmSerials>" ++
   "<ShipConfirmSerials><serial_number>C</serial_number></ShipConfirmSerials>" ++
   "</ShipConfirmLine>").data

/-- The line block of `exDoc1`. -/
def exBlock1 : List Char :=
  ("<delivery_id>D1</delivery_id><ProductServiceId>P1</ProductServiceId>" ++
   "<ShipConfirmSerials><serial_number>A</serial_number></ShipConfirmSerials>" ++
   "<ShipConfirmSerials><serial_number>B</serial_number></ShipConfirmSerials>" ++
   "<ShipConfirmSerials><serial_number>C</serial_number></ShipConfirmSerials>").data

/-- A document with one line-group holding no serial sub-group,
delivery id `D2`, product id `P2` — the spec's no-serial test vector. -/
def exDoc2 : List Char :=
  ("<ShipConfirmLine><delivery_id>D2</delivery_id>" ++
   "<ProductServiceId>P2</ProductServiceId></ShipConfirmLine>").data

/-- The line block of `exDoc2`. -/
def exBlock2 : List Char :=
  "<delivery_id>D2</delivery_id><ProductServiceId>P2</ProductServiceId>".data

/-- A document whose single line-group contains neither a delivery-id
nor a product/service-id tag pair. -/
def exDoc3 : List Char := "<ShipConfirmLine>x</ShipConfirmLine>".data

/-- A document whose delivery-id tag pair encloses text with an embedded
newline (`A\nB`). -/
def exDoc4 : List Char :=
  shipOpen ++ (deliveryOpen ++ ('A' :: '\n' :: 'B' :: []) ++ deliveryClose) ++ shipClose

/-- A document with one matched line-group followed by an opening tag
that is never closed. -/
def exDoc10 : List Char :=
  ("<ShipConfirmLine><delivery_id>D</delivery_id></ShipConfirmLine>" ++
   "xy<ShipConfirmLine><delivery_id>E</delivery_id>").data

/-! ### Properties of `List.isPrefixOf` -/

lemma isPrefixOf_append_self (l r : List Char) : l.isPrefixOf (l ++ r) = true := by
  induction l with
  | nil => simp [List.isPrefixOf]
  | cons a l ih => simp [List.isPrefixOf, ih]

lemma exists_of_isPrefixOf {l s : List Char} (h : l.isPrefixOf s = true) :
    ∃ u, s = l ++ u := by
  induction l generalizing s with
  | nil => exact ⟨s, rfl⟩
  | cons a l ih =>
    cases s with
    | nil => simp [List.isPrefixOf] at h
    | cons b t =>
      simp only [List.isPrefixOf, Bool.and_eq_true, beq_iff_eq] at h
      obtain ⟨rfl, h2⟩ := h
      obtain ⟨u, rfl⟩ := ih h2
      exact ⟨u, rfl⟩

lemma isPrefixOf_agree (cl a b c : List Char) (h : cl.length ≤ a.length) :
    cl.isPrefixOf (a ++ b) = cl.isPrefixOf (a ++ c) := by
  induction cl generalizing a with
  | nil => simp [List.isPrefixOf]
  | cons x cl ih =>
    cases a with
    | nil => simp at h
    | cons y a =>
      simp only [List.length_cons, Nat.add_le_add_iff_right] at h
      simp only [List.cons_append, List.isPrefixOf]
      congr 1
      exact ih a h

/-! ### Properties of `scanTo` -/

lemma scanTo_decomp {p : Char → Bool} {cl s body rest : List Char}
    (h : scanTo p cl s = some (body, rest)) :
    s = body ++ cl ++ rest ∧ ∀ ch ∈ body, p ch = true := by
  induction s generalizing body with
  | nil =>
    simp only [scanTo] at h
    split at h
    · rename_i hpre
      obtain ⟨u, hu⟩ := exists_of_isPrefixOf hpre
      obtain ⟨rfl, rfl⟩ := List.append_eq_nil.mp hu.symm
      simp only [Option.some.injEq, Prod.mk.injEq] at h
      obtain ⟨rfl, rfl⟩ := h
      simp
    · exact absurd h (by simp)
  | cons ch t ih =>
    simp only [scanTo] at h
    split at h
    · rename_i hpre
      simp only [Option.some.injEq, Prod.mk.injEq] at h
      obtain ⟨rfl, rfl⟩ := h
      obtain ⟨u, hu⟩ := exists_of_isPrefixOf hpre
      rw [hu, List.drop_left]
      simp
    · split at h
      · rename_i hp
        rw [Option.map_eq_some'] at h
        obtain ⟨⟨body', rest'⟩, hrec, heq⟩ := h
        simp only [Prod.mk.injEq] at heq
        obtain ⟨hb, rfl⟩ := heq
        obtain ⟨hdec, hmem⟩ := ih hrec
        subst hb
        constructor
        · simp [hdec]
        · intro c hc
          rcases List.mem_cons.mp hc with rfl | hc
          · exact hp
          · exact hmem c hc
      · exact absurd h (by simp)

lemma scanTo_self (p : Char → Bool) (cl r : List Char) :
    scanTo p cl (cl ++ r) = some ([], r) := by
  cases hcr : cl ++ r with
  | nil =>
    obtain ⟨rfl, rfl⟩ := List.append_eq_nil.mp hcr
    simp [scanTo, List.isPrefixOf]
  | cons ch t =>
    rw [← hcr]
    cases cl with
    | nil =>
      cases r with
      | nil => simp at hcr
      | cons rh rt => simp [scanTo, List.isPrefixOf]
    | cons clh clt =>
      have hne : (clh :: clt) ++ r = clh :: (clt ++ r) := rfl
      rw [hne]
      simp only [scanTo]
      rw [show clh :: (clt ++ r) = (clh :: clt) ++ r from rfl,
        isPrefixOf_append_self (clh :: clt) r]
      simp [List.drop_left]

/-- A successful lazy scan depends only on the text through the closing
tag: the remainder can be replaced. -/
lemma scanTo_ext {p : Char → Bool} {cl body rest : List Char} (rest' : List Char)
    (h : scanTo p cl (body ++ cl ++ rest) = some (body, rest)) :
    scanTo p cl (body ++ cl ++ rest') = some (body, rest') := by
  induction body generalizing rest rest' with
  | nil =>
    simpa using scanTo_self p cl rest'
  | cons bh bt ih =>
    have hcons : (bh :: bt) ++ cl ++ rest = bh :: (bt ++ cl ++ rest) := by simp
    rw [hcons] at h
    simp only [scanTo] at h
    split at h
    · simp only [Option.some.injEq, Prod.mk.injEq] at h
      exact absurd h.1.symm (by simp)
    · rename_i hpre
      split at h
      · rename_i hp
        rw [Option.map_eq_some'] at h
        obtain ⟨⟨body', rest0⟩, hrec, heq⟩ := h
        simp only [Prod.mk.injEq] at heq
        obtain ⟨hb, rfl⟩ := heq
        have hb' : body' = bt := by simpa using hb
        rw [hb'] at hrec
        have hcons' : (bh :: bt) ++ cl ++ rest' = bh :: (bt ++ cl ++ rest') := by simp
        rw [hcons']
        simp only [scanTo]
        have hpre' : cl.isPrefixOf (bh :: (bt ++ cl ++ rest')) = false := by
          have hag := isPrefixOf_agree cl (bh :: (bt ++ cl)) rest0 rest'
            (by simp only [List.length_cons, List.length_append]; omega)
          simp only [List.cons_append, List.append_assoc] at hag ⊢
          rw [← hag]
          simp only [List.append_assoc] at hpre
          exact Bool.eq_false_iff.mpr hpre
        rw [hpre']
        simp only [Bool.false_eq_true, if_false, hp, if_true]
        rw [ih rest' hrec]
        rfl
      · exact absurd h (by simp)

/-- With the universal character class, a lazy scan over text containing
the closing tag always succeeds. -/
lemma scanTo_any_isSome (cl a b : List Char) :
    (scanTo anyP cl (a ++ cl ++ b)).isSome = true := by
  induction a with
  | nil => simp [scanTo_self]
  | cons ah at' ih =>
    have hcons : (ah :: at') ++ cl ++ b = ah :: (at' ++ cl ++ b) := by simp
    rw [hcons]
    simp only [scanTo]
    split
    · simp
    · simp only [anyP, if_true]
      rw [Option.isSome_map']
      exact ih

/-- Lazy scan over a span with no earlier occurrence of the closing tag
and all characters admitted: the scan returns exactly the span. -/
lemma scanTo_exact {p : Char → Bool} (cl text rest : List Char)
    (hp : ∀ ch ∈ text, p ch = true)
    (hno : ∀ j, j < text.length → cl.isPrefixOf ((text ++ cl ++ rest).drop j) = false) :
    scanTo p cl (text ++ cl ++ rest) = some (text, rest) := by
  induction text with
  | nil => simpa using scanTo_self p cl rest
  | cons ch t ih =>
    have hcons : (ch :: t) ++ cl ++ rest = ch :: (t ++ cl ++ rest) := by simp
    rw [hcons]
    simp only [scanTo]
    have h0 := hno 0 (by simp)
    rw [List.drop_zero, hcons] at h0
    rw [h0]
    simp only [Bool.false_eq_true, if_false, hp ch (List.mem_cons_self ch t), if_true]
    rw [ih (fun c hc => hp c (List.mem_cons_of_mem ch hc)) ?_]
    · rfl
    · intro j hj
      have := hno (j + 1) (by simpa using Nat.succ_lt_succ hj)
      rwa [hcons, List.drop_succ_cons] at this

/-- Lazy scan that must cross a rejected character before any occurrence
of the closing tag fails. -/
lemma scanTo_none {p : Char → Bool} (cl u v : List Char) (ch : Char)
    (hch : p ch = false)
    (hno : ∀ j, j ≤ u.length → cl.isPrefixOf ((u ++ ch :: v).drop j) = false) :
    scanTo p cl (u ++ ch :: v) = none := by
  induction u with
  | nil =>
    simp only [List.nil_append]
    simp only [scanTo]
    have h0 := hno 0 (by simp)
    rw [List.drop_zero, List.nil_append] at h0
    rw [h0]
    simp [hch]
  | cons uh ut ih =>
    have hcons : (uh :: ut) ++ ch :: v = uh :: (ut ++ ch :: v) := by simp
    rw [hcons]
    simp only [scanTo]
    have h0 := hno 0 (by simp)
    rw [List.drop_zero, hcons] at h0
    rw [h0]
    simp only [Bool.false_eq_true, if_false]
    have hrec : scanTo p cl (ut ++ ch :: v) = none := by
      apply ih
      intro j hj
      have := hno (j + 1) (by simpa using Nat.succ_le_succ hj)
      rwa [hcons, List.drop_succ_cons] at this
    cases hpu : p uh
    · simp
    · simp [hrec]

/-! ### Characterisation of `findSub` -/

lemma findSub_some_isPrefixOf {pat s : List Char} {i : Nat} (h : findSub pat s = some i) :
    pat.isPrefixOf (s.drop i) = true := by
  induction s generalizing i with
  | nil =>
    simp only [findSub] at h
    split at h
    · rename_i hpre
      simp only [Option.some.injEq] at h
      subst h
      simpa using hpre
    · exact absurd h (by simp)
  | cons ch t ih =>
    simp only [findSub] at h
    split at h
    · rename_i hpre
      simp only [Option.some.injEq] at h
      subst h
      simpa using hpre
    · rw [Option.map_eq_some'] at h
      obtain ⟨i', hrec, rfl⟩ := h
      rw [List.drop_succ_cons]
      exact ih hrec

lemma findSub_some_not_before {pat s : List Char} {i : Nat} (h : findSub pat s = some i) :
    ∀ j, j < i → pat.isPrefixOf (s.drop j) = false := by
  induction s generalizing i with
  | nil =>
    simp only [findSub] at h
    split at h
    · simp only [Option.some.injEq] at h
      subst h
      intro j hj
      exact absurd hj (by omega)
    · exact absurd h (by simp)
  | cons ch t ih =>
    simp only [findSub] at h
    split at h
    · simp only [Option.some.injEq] at h
      subst h
      intro j hj
      exact absurd hj (by omega)
    · rename_i hpre
      rw [Option.map_eq_some'] at h
      obtain ⟨i', hrec, rfl⟩ := h
      intro j hj
      cases j with
      | zero =>
        rw [List.drop_zero]
        exact Bool.eq_false_iff.mpr hpre
      | succ j' =>
        rw [List.drop_succ_cons]
        exact ih hrec j' (by omega)

lemma findSub_none {pat s : List Char} (h : findSub pat s = none) :
    ∀ j, pat.isPrefixOf (s.drop j) = false := by
  induction s with
  | nil =>
    simp only [findSub] at h
    split at h
    · exact absurd h (by simp)
    · rename_i hpre
      intro j
      rw [List.drop_nil]
      exact Bool.eq_false_iff.mpr hpre
  | cons ch t ih =>
    simp only [findSub] at h
    split at h
    · exact absurd h (by simp)
    · rename_i hpre
      rw [Option.map_eq_none'] at h
      intro j
      cases j with
      | zero =>
        rw [List.drop_zero]
        exact Bool.eq_false_iff.mpr hpre
      | succ j' =>
        rw [List.drop_succ_cons]
        exact ih h j'

/-! ### Properties of `searchSplit` -/

/-- A successful leftmost-match search decomposes the input. -/
lemma searchSplit_decomp {p : Char → Bool} {o cl s pre body rest : List Char}
    (h : searchSplit p o cl s = some (pre, body, rest)) :
    s = pre ++ o ++ body ++ cl ++ rest := by
  induction s generalizing pre with
  | nil => exact absurd h (by simp [searchSplit])
  | cons ch t ih =>
    simp only [searchSplit] at h
    split at h
    · rename_i br hbr
      simp only [Option.some.injEq, Prod.mk.injEq] at h
      obtain ⟨rfl, rfl, rfl⟩ := h
      split at hbr
      · rename_i hpre
        obtain ⟨u, hu⟩ := exists_of_isPrefixOf hpre
        rw [hu, List.drop_left] at hbr
        obtain ⟨hdec, -⟩ := scanTo_decomp hbr
        rw [hu, hdec]
        simp
      · exact absurd hbr (by simp)
    · rw [Option.map_eq_some'] at h
      obtain ⟨⟨pre', body', rest'⟩, hrec, heq⟩ := h
      simp only [Prod.mk.injEq] at heq
      obtain ⟨hpre, rfl, rfl⟩ := heq
      subst hpre
      rw [ih hrec]
      simp

/-- A match consumes at least the opening tag, so the remainder is
strictly shorter. -/
lemma searchSplit_rest_lt {p : Char → Bool} {o cl s pre body rest : List Char} (ho : o ≠ [])
    (h : searchSplit p o cl s = some (pre, body, rest)) : rest.length < s.length := by
  have hd := searchSplit_decomp h
  have hl : 0 < o.length := List.length_pos.mpr ho
  rw [hd]
  simp only [List.length_append]
  omega

/-- Leftmost matching with the universal character class depends only on
the text through the match: the remainder can be replaced. -/
lemma searchSplit_ext {o cl : List Char} (ho : o ≠ []) {pre body rest : List Char}
    (rest' : List Char)
    (h : searchSplit anyP o cl (pre ++ o ++ body ++ cl ++ rest) = some (pre, body, rest)) :
    searchSplit anyP o cl (pre ++ o ++ body ++ cl ++ rest') = some (pre, body, rest') := by
  induction pre generalizing rest rest' with
  | nil =>
    obtain ⟨oh, ot, rfl⟩ : ∃ x y, o = x :: y := by
      cases o with
      | nil => exact absurd rfl ho
      | cons x y => exact ⟨x, y, rfl⟩
    have hcons : ∀ r : List Char, ([] : List Char) ++ (oh :: ot) ++ body ++ cl ++ r =
        oh :: (ot ++ (body ++ cl ++ r)) := by intro r; simp
    rw [hcons] at h
    rw [hcons]
    simp only [searchSplit] at h ⊢
    split at h
    · rename_i b r hbr
      simp only [Option.some.injEq, Prod.mk.injEq] at h
      obtain ⟨-, hb, hr⟩ := h
      rw [hb, hr] at hbr
      have hdrop : ∀ r0 : List Char, (oh :: (ot ++ (body ++ cl ++ r0))).drop (oh :: ot).length =
          body ++ cl ++ r0 := by
        intro r0
        rw [show oh :: (ot ++ (body ++ cl ++ r0)) = (oh :: ot) ++ (body ++ cl ++ r0) from rfl,
          List.drop_left]
      split at hbr
      · rename_i hpre0
        rw [hdrop] at hbr
        have hbr' := scanTo_ext rest' hbr
        have hpre' : (oh :: ot).isPrefixOf (oh :: (ot ++ (body ++ cl ++ rest'))) = true := by
          rw [show oh :: (ot ++ (body ++ cl ++ rest')) =
            (oh :: ot) ++ (body ++ cl ++ rest') from rfl]
          exact isPrefixOf_append_self _ _
        rw [hpre', if_pos rfl, hdrop, hbr']
      · exact absurd hbr (by simp)
    · rename_i hbr
      rw [Option.map_eq_some'] at h
      obtain ⟨⟨pre', body', rest0⟩, -, heq⟩ := h
      simp only [Prod.mk.injEq] at heq
      exact absurd heq.1.symm (by simp)
  | cons ph pt ih =>
    have hcons : ∀ r : List Char, (ph :: pt) ++ o ++ body ++ cl ++ r =
        ph :: (pt ++ o ++ body ++ cl ++ r) := by intro r; simp
    rw [hcons] at h
    rw [hcons]
    simp only [searchSplit] at h ⊢
    split at h
    · rename_i b r hbr
      simp only [Option.some.injEq, Prod.mk.injEq] at h
      exact absurd h.1.symm (by simp)
    · rename_i hbr
      rw [Option.map_eq_some'] at h
      obtain ⟨⟨pre', body', rest0⟩, hrec, heq⟩ := h
      simp only [Prod.mk.injEq] at heq
      obtain ⟨hpp, hb, hr⟩ := heq
      have hpt : pre' = pt := by simpa using hpp
      rw [hpt, hb, hr] at hrec
      have hih := ih rest' hrec
      have hattempt : (if o.isPrefixOf (ph :: (pt ++ o ++ body ++ cl ++ rest')) then
          scanTo anyP cl ((ph :: (pt ++ o ++ body ++ cl ++ rest')).drop o.length)
          else none) = none := by
        split at hbr
        · rename_i hpre
          -- impossible: with the universal class and the closing tag ahead,
          -- the scan cannot fail
          exfalso
          have hsplit : (ph :: (pt ++ o ++ body ++ cl ++ rest)).drop o.length =
              (((ph :: (pt ++ o)).drop o.length) ++ body) ++ cl ++ rest := by
            rw [show ph :: (pt ++ o ++ body ++ cl ++ rest) =
              ((ph :: (pt ++ o)) ++ (body ++ cl ++ rest)) from by simp,
              List.drop_append_eq_append_drop]
            have hz : o.length - (ph :: (pt ++ o)).length = 0 := by
              simp only [List.length_cons, List.length_append]
              omega
            rw [hz, List.drop_zero]
            simp
          rw [hsplit] at hbr
          have hsome := scanTo_any_isSome cl (((ph :: (pt ++ o)).drop o.length) ++ body) rest
          rw [hbr] at hsome
          simp at hsome
        · rename_i hpre
          rw [if_neg ?_]
          intro hpre'
          apply hpre
          have hag := isPrefixOf_agree o (ph :: (pt ++ o ++ body ++ cl)) rest rest'
            (by simp only [List.length_cons, List.length_append]; omega)
          simp only [List.cons_append, List.append_assoc] at hag
          simp only [List.append_assoc] at hpre' ⊢
          rw [hag]
          exact hpre'
      rw [hattempt, hih]
      rfl

/-- When no position of `s` carries the opening tag, there is no match. -/
lemma searchSplit_none_of {p : Char → Bool} {o cl s : List Char}
    (h : ∀ j, o.isPrefixOf (s.drop j) = false) :
    searchSplit p o cl s = none := by
  induction s with
  | nil => simp [searchSplit]
  | cons ch t ih =>
    simp only [searchSplit]
    have h0 := h 0
    rw [List.drop_zero] at h0
    rw [h0]
    simp only [Bool.false_eq_true, if_false]
    rw [ih ?_]
    · rfl
    · intro j
      have := h (j + 1)
      rwa [List.drop_succ_cons] at this

/-! ### Fuel irrelevance for `findIter` and `lastMatchEnd` -/

lemma findIterAux_fuel {p : Char → Bool} {o cl : List Char} (ho : o ≠ []) :
    ∀ n m s, s.length ≤ n → s.length ≤ m →
      findIterAux p o cl n s = findIterAux p o cl m s := by
  intro n
  induction n with
  | zero =>
    intro m s hn _
    obtain rfl : s = [] := List.eq_nil_of_length_eq_zero (Nat.le_zero.mp hn)
    cases m with
    | zero => rfl
    | succ m => simp [findIterAux, searchSplit]
  | succ n ih =>
    intro m s hn hm
    cases m with
    | zero =>
      obtain rfl : s = [] := List.eq_nil_of_length_eq_zero (Nat.le_zero.mp hm)
      simp [findIterAux, searchSplit]
    | succ m =>
      simp only [findIterAux]
      cases hs : searchSplit p o cl s with
      | none => rfl
      | some r =>
        obtain ⟨pre, body, rest⟩ := r
        have hlt := searchSplit_rest_lt ho hs
        show body :: findIterAux p o cl n rest = body :: findIterAux p o cl m rest
        rw [ih m rest (by omega) (by omega)]

/-- The fuelled scan satisfies the intended recurrence: the fuel
`s.length` never runs out. -/
lemma findIter_eq {p : Char → Bool} {o cl : List Char} (ho : o ≠ []) (s : List Char) :
    findIter p o cl s =
      match searchSplit p o cl s with
      | none => []
      | some (_, body, rest) => body :: findIter p o cl rest := by
  unfold findIter
  cases s with
  | nil => simp [findIterAux, searchSplit]
  | cons ch t =>
    simp only [List.length_cons, findIterAux]
    cases hs : searchSplit p o cl (ch :: t) with
    | none => rfl
    | some r =>
      obtain ⟨pre, body, rest⟩ := r
      have hlt := searchSplit_rest_lt ho hs
      simp only [List.length_cons] at hlt
      show body :: findIterAux p o cl t.length rest = body :: findIterAux p o cl rest.length rest
      rw [findIterAux_fuel ho t.length rest.length rest (by omega) (by omega)]

lemma lastMatchEndAux_fuel {p : Char → Bool} {o cl : List Char} (ho : o ≠ []) :
    ∀ n m s, s.length ≤ n → s.length ≤ m →
      lastMatchEndAux p o cl n s = lastMatchEndAux p o cl m s := by
  intro n
  induction n with
  | zero =>
    intro m s hn _
    obtain rfl : s = [] := List.eq_nil_of_length_eq_zero (Nat.le_zero.mp hn)
    cases m with
    | zero => rfl
    | succ m => simp [lastMatchEndAux, searchSplit]
  | succ n ih =>
    intro m s hn hm
    cases m with
    | zero =>
      obtain rfl : s = [] := List.eq_nil_of_length_eq_zero (Nat.le_zero.mp hm)
      simp [lastMatchEndAux, searchSplit]
    | succ m =>
      simp only [lastMatchEndAux]
      cases hs : searchSplit p o cl s with
      | none => rfl
      | some r =>
        obtain ⟨pre, body, rest⟩ := r
        have hlt := searchSplit_rest_lt ho hs
        show pre.length + o.length + body.length + cl.length + lastMatchEndAux p o cl n rest =
          pre.length + o.length + body.length + cl.length + lastMatchEndAux p o cl m rest
        rw [ih m rest (by omega) (by omega)]

lemma lastMatchEnd_eq {p : Char → Bool} {o cl : List Char} (ho : o ≠ []) (s : List Char) :
    lastMatchEnd p o cl s =
      match searchSplit p o cl s with
      | none => 0
      | some (pre, body, rest) =>
          pre.length + o.length + body.length + cl.length + lastMatchEnd p o cl rest := by
  unfold lastMatchEnd
  cases s with
  | nil => simp [lastMatchEndAux, searchSplit]
  | cons ch t =>
    simp only [List.length_cons, lastMatchEndAux]
    cases hs : searchSplit p o cl (ch :: t) with
    | none => rfl
    | some r =>
      obtain ⟨pre, body, rest⟩ := r
      have hlt := searchSplit_rest_lt ho hs
      simp only [List.length_cons] at hlt
      show pre.length + o.length + body.length + cl.length + lastMatchEndAux p o cl t.length rest =
        pre.length + o.length + body.length + cl.length + lastMatchEndAux p o cl rest.length rest
      rw [lastMatchEndAux_fuel ho t.length rest.length rest (by omega) (by omega)]

/-! ### The loop of `extract_data` as a per-block concatenation -/

lemma foldl_append_map {α : Type} (f : α → Record) (l : List α) (init : List Record) :
    l.foldl (fun rs a => rs ++ [f a]) init = init ++ l.map f := by
  induction l generalizing init with
  | nil => simp
  | cons a l ih => simp [ih]

/-- The loop body appends exactly the records of the block. -/
lemma extractStep_eq (results : List Record) (line_block : List Char) :
    extractStep results line_block = results ++ extractRecordsFromBlock line_block := by
  unfold extractStep extractRecordsFromBlock
  simp only [foldl_append_map]
  rcases hse : (findIter anyP serialsOpen serialsClose line_block).isEmpty with hf | ht
  · simp only [hse, Bool.false_eq_true, if_false]
    rw [show serialGroups line_block = findIter anyP serialsOpen serialsClose line_block from rfl,
      hse]
    simp [blockDeliveryId, blockProductServiceId, groupSerialNumber]
  · have hnil : findIter anyP serialsOpen serialsClose line_block = [] :=
      List.isEmpty_iff.mp hse
    simp only [hse, if_true]
    rw [show serialGroups line_block = findIter anyP serialsOpen serialsClose line_block from rfl,
      hse]
    simp [hnil, blockDeliveryId, blockProductServiceId]

lemma foldl_extractStep (blocks : List (List Char)) (init : List Record) :
    blocks.foldl extractStep init = init ++ blocks.flatMap extractRecordsFromBlock := by
  induction blocks generalizing init with
  | nil => simp
  | cons b bs ih =>
    rw [List.foldl_cons, ih, extractStep_eq, List.flatMap_cons, List.append_assoc]

/-- `extract_data` is the in-order concatenation of the records of each
line block. -/
lemma extract_data_eq (content : List Char) :
    extract_data content =
      (findIter anyP shipOpen shipClose content).flatMap extractRecordsFromBlock := by
  unfold extract_data
  rw [foldl_extractStep]
  rfl

/-! ### The claims -/

/-- C1: for every input document, a line-group block with `k ≥ 1` serial
sub-groups contributes exactly the `k` records obtained by mapping over
its sub-groups in order — so all `k` share the block's `delivery_id` and
`product_service_id` and follow the sub-group order — and the whole
output is the in-order concatenation of the per-block records, block
after block as they occur in the document (no sorting). -/
theorem C1_block_records (content line_block : List Char)
    (_hb : line_block ∈ findIter anyP shipOpen shipClose content)
    (hk : 1 ≤ (serialGroups line_block).length) :
    extractRecordsFromBlock line_block =
      (serialGroups line_block).map (fun serials_block =>
        { delivery_id := blockDeliveryId line_block,
          product_service_id := blockProductServiceId line_block,
          serial_number := groupSerialNumber serials_block }) ∧
    extract_data content =
      (findIter anyP shipOpen shipClose content).flatMap extractRecordsFromBlock := by
  constructor
  · have hne : (serialGroups line_block).isEmpty = false := by
      rcases hse : serialGroups line_block with _ | ⟨a, l⟩
      · rw [hse] at hk
        simp at hk
      · simp
    simp only [extractRecordsFromBlock, hne, Bool.false_eq_true, if_false]
  · exact extract_data_eq content

/-- Witness for C1 at the spec's three-serials vector: delivery `D1`,
product `P1`, serials `A`, `B`, `C` in order. -/
theorem C1_block_records_witness :
    (extractRecordsFromBlock exBlock1 =
      (serialGroups exBlock1).map (fun serials_block =>
        { delivery_id := blockDeliveryId exBlock1,
          product_service_id := blockProductServiceId exBlock1,
          serial_number := groupSerialNumber serials_block }) ∧
     extract_data exDoc1 =
      (findIter anyP shipOpen shipClose exDoc1).flatMap extractRecordsFromBlock) ∧
    extract_data exDoc1 =
      [{ delivery_id := "D1".data, product_service_id := "P1".data, serial_number := "A".data },
       { delivery_id := "D1".data, product_service_id := "P1".data, serial_number := "B".data },
       { delivery_id := "D1".data, product_service_id := "P1".data, serial_number := "C".data }] :=
  ⟨C1_block_records exDoc1 exBlock1 (by decide) (by decide), by decide⟩

/-- C2: a line-group block with zero serial sub-groups contributes
exactly one record, with an empty serial number and the block's
`delivery_id` and `product_service_id`; the whole output is the
in-order concatenation of the per-block records. -/
theorem C2_no_serials (content line_block : List Char)
    (_hb : line_block ∈ findIter anyP shipOpen shipClose content)
    (h0 : serialGroups line_block = []) :
    extractRecordsFromBlock line_block =
      [{ delivery_id := blockDeliveryId line_block,
         product_service_id := blockProductServiceId line_block, serial_number := [] }] ∧
    extract_data content =
      (findIter anyP shipOpen shipClose content).flatMap extractRecordsFromBlock := by
  constructor
  · simp only [extractRecordsFromBlock, h0, List.isEmpty_nil, if_true]
  · exact extract_data_eq content

/-- Witness for C2 at the spec's no-serial vector: delivery `D2`,
product `P2`, no serial sub-group. -/
theorem C2_no_serials_witness :
    (extractRecordsFromBlock exBlock2 =
      [{ delivery_id := blockDeliveryId exBlock2,
         product_service_id := blockProductServiceId exBlock2, serial_number := [] }] ∧
     extract_data exDoc2 =
      (findIter anyP shipOpen shipClose exDoc2).flatMap extractRecordsFromBlock) ∧
    extract_data exDoc2 =
      [{ delivery_id := "D2".data, product_service_id := "P2".data, serial_number := [] }] :=
  ⟨C2_no_serials exDoc2 exBlock2 (by decide) (by decide), by decide⟩

/-- C3: when the delivery-id (resp. product/service-id) tag pair has no
match in a line-group block, every record of that block carries the
empty string in the corresponding field.  No error is possible:
`extract_data` is a total function. -/
theorem C3_missing_tags (content line_block : List Char)
    (_hb : line_block ∈ findIter anyP shipOpen shipClose content) :
    (searchTag dotP deliveryOpen deliveryClose line_block = none →
      ∀ r ∈ extractRecordsFromBlock line_block, r.delivery_id = []) ∧
    (searchTag dotP productOpen productClose line_block = none →
      ∀ r ∈ extractRecordsFromBlock line_block, r.product_service_id = []) := by
  constructor
  · intro h r hr
    simp only [extractRecordsFromBlock] at hr
    split at hr
    · simp only [List.mem_singleton] at hr
      subst hr
      simp [blockDeliveryId, h]
    · rw [List.mem_map] at hr
      obtain ⟨sb, -, rfl⟩ := hr
      simp [blockDeliveryId, h]
  · intro h r hr
    simp only [extractRecordsFromBlock] at hr
    split at hr
    · simp only [List.mem_singleton] at hr
      subst hr
      simp [blockProductServiceId, h]
    · rw [List.mem_map] at hr
      obtain ⟨sb, -, rfl⟩ := hr
      simp [blockProductServiceId, h]

/-- Witness for C3 at a block that carries neither tag pair. -/
theorem C3_missing_tags_witness :
    searchTag dotP deliveryOpen deliveryClose ("x".data) = none ∧
    (List.headI (extractRecordsFromBlock ("x".data))).delivery_id = [] ∧
    searchTag dotP productOpen productClose ("x".data) = none ∧
    (List.headI (extractRecordsFromBlock ("x".data))).product_service_id = [] :=
  ⟨by decide,
   (C3_missing_tags exDoc3 ("x".data) (by decide)).1 (by decide) _ (by decide),
   by decide,
   (C3_missing_tags exDoc3 ("x".data) (by decide)).2 (by decide) _ (by decide)⟩

/-- C8: a document with no match of the line-group tag-pair pattern
yields an empty record sequence. -/
theorem C8_no_blocks (content : List Char)
    (h : searchSplit anyP shipOpen shipClose content = none) :
    extract_data content = [] := by
  rw [extract_data_eq, findIter_eq (show shipOpen ≠ [] by decide) content, h]
  rfl

/-- Witness for C8 at a document with no tags at all. -/
theorem C8_no_blocks_witness : extract_data ("no tags here".data) = [] :=
  C8_no_blocks ("no tags here".data) (by decide)

/-- C9: `extract_data` is total and pure.  In this embedding its totality
is carried by the scanning loop: the fuelled `findIter` satisfies its
intended recurrence at every input whatever the tag structure (the fuel
never runs out), and `extract_data` is the resulting concatenation — a
function defined on all strings, returning a (possibly empty) list and
never failing. -/
theorem C9_total (content : List Char) :
    (findIter anyP shipOpen shipClose content =
      match searchSplit anyP shipOpen shipClose content with
      | none => []
      | some (_, body, rest) => body :: findIter anyP shipOpen shipClose rest) ∧
    extract_data content =
      (findIter anyP shipOpen shipClose content).flatMap extractRecordsFromBlock :=
  ⟨findIter_eq (show shipOpen ≠ [] by decide) content, extract_data_eq content⟩

/-- C7: `extract_from_file` fails with a `SourceReadError` carrying the
path and the underlying cause on any read or decode failure — returning
no records — and on a successful read returns exactly `extract_data` of
the file's full text. -/
theorem C7_read_failure (filename cause content : List Char) :
    extract_from_file filename (ReadResult.failure cause) =
      Except.error { path := filename, cause := cause } ∧
    extract_from_file filename (ReadResult.ok content) =
      Except.ok (extract_data content) :=
  ⟨rfl, rfl⟩

/-- Scanning stops at the end of the last match: the text after it never
contributes a match. -/
lemma findIter_take_lastMatchEnd {o cl : List Char} (ho : o ≠ []) :
    ∀ n s, s.length ≤ n →
      findIter anyP o cl s = findIter anyP o cl (s.take (lastMatchEnd anyP o cl s)) := by
  intro n
  induction n with
  | zero =>
    intro s hs
    obtain rfl : s = [] := List.eq_nil_of_length_eq_zero (Nat.le_zero.mp hs)
    simp
  | succ n ih =>
    intro s hs
    rw [findIter_eq ho s, lastMatchEnd_eq ho s]
    cases hsp : searchSplit anyP o cl s with
    | none =>
      show ([] : List (List Char)) = findIter anyP o cl (s.take 0)
      rw [List.take_zero]
      rfl
    | some r =>
      obtain ⟨pre, body, rest⟩ := r
      have hdec := searchSplit_decomp hsp
      have hlen : rest.length < s.length := searchSplit_rest_lt ho hsp
      rw [hdec] at hs hsp ⊢
      rw [hdec, List.length_append] at hlen
      show body :: findIter anyP o cl rest =
        findIter anyP o cl ((pre ++ o ++ body ++ cl ++ rest).take
          (pre.length + o.length + body.length + cl.length + lastMatchEnd anyP o cl rest))
      have hchunk : (pre ++ o ++ body ++ cl).length =
          pre.length + o.length + body.length + cl.length := by
        simp only [List.length_append]
      rw [List.take_append_eq_append_take,
        List.take_of_length_le (by rw [hchunk]; omega),
        show pre.length + o.length + body.length + cl.length +
          lastMatchEnd anyP o cl rest - (pre ++ o ++ body ++ cl).length =
          lastMatchEnd anyP o cl rest from by rw [hchunk]; omega]
      have hext := searchSplit_ext ho (rest.take (lastMatchEnd anyP o cl rest)) hsp
      rw [findIter_eq ho (pre ++ o ++ body ++ cl ++ rest.take (lastMatchEnd anyP o cl rest)),
        hext]
      show body :: findIter anyP o cl rest =
        body :: findIter anyP o cl (rest.take (lastMatchEnd anyP o cl rest))
      rw [← ih rest ?_]
      simp only [List.length_append] at hs
      omega

/-- Verbatim extraction: when the closing tag first occurs right after
the span and every span character is admitted by the class, the span is
extracted exactly, whatever follows — the match is the shortest one. -/
lemma searchTag_isolated_pos {p : Char → Bool} {o cl : List Char} (ho : o ≠ [])
    (text rest : List Char)
    (hcl : findSub cl (text ++ cl) = some text.length)
    (hp : ∀ ch ∈ text, p ch = true) :
    searchTag p o cl (o ++ text ++ cl ++ rest) = some text := by
  obtain ⟨oh, ot, rfl⟩ : ∃ x y, o = x :: y := by
    cases o with
    | nil => exact absurd rfl ho
    | cons x y => exact ⟨x, y, rfl⟩
  have hno : ∀ j, j < text.length →
      cl.isPrefixOf ((text ++ cl ++ rest).drop j) = false := by
    intro j hj
    have hbefore := findSub_some_not_before hcl j hj
    have hsplit : (text ++ cl ++ rest).drop j = (text ++ cl).drop j ++ rest := by
      rw [List.drop_append_eq_append_drop,
        show j - (text ++ cl).length = 0 from by simp only [List.length_append]; omega,
        List.drop_zero]
    rw [hsplit]
    have hag := isPrefixOf_agree cl ((text ++ cl).drop j) [] rest
      (by rw [List.length_drop]; simp only [List.length_append]; omega)
    rw [← hag, List.append_nil]
    exact hbefore
  have hscan : scanTo p cl (text ++ cl ++ rest) = some (text, rest) :=
    scanTo_exact cl text rest hp hno
  have hinput : (oh :: ot) ++ text ++ cl ++ rest =
      oh :: (ot ++ (text ++ cl ++ rest)) := by simp
  unfold searchTag
  rw [hinput]
  simp only [searchSplit]
  have hpre : (oh :: ot).isPrefixOf (oh :: (ot ++ (text ++ cl ++ rest))) = true := by
    rw [show oh :: (ot ++ (text ++ cl ++ rest)) =
      (oh :: ot) ++ (text ++ cl ++ rest) from rfl]
    exact isPrefixOf_append_self _ _
  have hdrop : (oh :: (ot ++ (text ++ cl ++ rest))).drop (oh :: ot).length =
      text ++ cl ++ rest := by
    rw [show oh :: (ot ++ (text ++ cl ++ rest)) =
      (oh :: ot) ++ (text ++ cl ++ rest) from rfl, List.drop_left]
  rw [hpre, if_pos rfl, hdrop, hscan]
  rfl

/-- Failure on a rejected character: when the closing tag first occurs
right after the span, some span character is rejected by the class, and
the opening tag does not reoccur, there is no match at all. -/
lemma searchTag_isolated_none {p : Char → Bool} {o cl : List Char} (ho : o ≠ [])
    (text : List Char) (ch : Char)
    (hcl : findSub cl (text ++ cl) = some text.length)
    (hop : findSub o (List.drop 1 (o ++ text ++ cl)) = none)
    (hmem : ch ∈ text) (hch : p ch = false) :
    searchTag p o cl (o ++ text ++ cl) = none := by
  obtain ⟨u, v, htext⟩ := List.append_of_mem hmem
  obtain ⟨oh, ot, rfl⟩ : ∃ x y, o = x :: y := by
    cases o with
    | nil => exact absurd rfl ho
    | cons x y => exact ⟨x, y, rfl⟩
  have hscan : scanTo p cl (text ++ cl) = none := by
    rw [htext, show (u ++ ch :: v) ++ cl = u ++ ch :: (v ++ cl) from by simp]
    apply scanTo_none cl u (v ++ cl) ch hch
    intro j hj
    have hjlt : j < text.length := by
      rw [htext]
      simp only [List.length_append, List.length_cons]
      omega
    have hbefore := findSub_some_not_before hcl j hjlt
    rw [htext, show (u ++ ch :: v) ++ cl = u ++ ch :: (v ++ cl) from by simp] at hbefore
    exact hbefore
  have htail : searchSplit p (oh :: ot) cl (ot ++ text ++ cl) = none := by
    apply searchSplit_none_of
    have hdrop1 : List.drop 1 ((oh :: ot) ++ text ++ cl) = ot ++ text ++ cl := by simp
    rw [hdrop1] at hop
    exact findSub_none hop
  have hinput : (oh :: ot) ++ text ++ cl = oh :: (ot ++ (text ++ cl)) := by simp
  unfold searchTag
  rw [hinput]
  simp only [searchSplit]
  have hpre : (oh :: ot).isPrefixOf (oh :: (ot ++ (text ++ cl))) = true := by
    rw [show oh :: (ot ++ (text ++ cl)) = (oh :: ot) ++ (text ++ cl) from rfl]
    exact isPrefixOf_append_self _ _
  have hdrop : (oh :: (ot ++ (text ++ cl))).drop (oh :: ot).length = text ++ cl := by
    rw [show oh :: (ot ++ (text ++ cl)) = (oh :: ot) ++ (text ++ cl) from rfl, List.drop_left]
  rw [hpre, if_pos rfl, hdrop, hscan,
    show ot ++ (text ++ cl) = ot ++ text ++ cl from by simp, htail]
  rfl

/-- C4 counterexample: the three inner patterns use `.` without
`re.DOTALL`, so enclosed text containing a newline is not matched, let
alone extracted verbatim: on a line block whose delivery id is `A\nB`
the extractor yields the empty string, not `A\nB`. -/
theorem C4_newline_counterexample :
    searchTag dotP deliveryOpen deliveryClose
      (deliveryOpen ++ ('A' :: '\n' :: 'B' :: []) ++ deliveryClose) = none ∧
    extract_data exDoc4 =
      [{ delivery_id := [], product_service_id := [], serial_number := [] }] :=
  ⟨by decide, by decide⟩

/-- C4 amended: matching of each inner tag pair is non-greedy (the span
ends at the next corresponding closing tag, whatever follows) and the
enclosed text is extracted verbatim — but only the line-group and
serial-group patterns (`[\s\S]*?`) tolerate embedded newlines.  The
delivery-id, product/service-id and serial-number patterns (`.*?`) do
not match across a newline: an isolated span containing one yields no
match (and hence an empty field), while a newline-free span is extracted
verbatim. -/
theorem C4_matching_amended (text : List Char) :
    (∀ b : List Char, isolatedSpan shipOpen shipClose text →
      searchTag anyP shipOpen shipClose (shipOpen ++ text ++ shipClose ++ b) = some text) ∧
    (isolatedSpan shipOpen shipClose text →
      searchTag anyP shipOpen shipClose (shipOpen ++ text ++ shipClose) = some text) ∧
    (isolatedSpan serialsOpen serialsClose text →
      searchTag anyP serialsOpen serialsClose (serialsOpen ++ text ++ serialsClose) =
        some text) ∧
    (isolatedSpan deliveryOpen deliveryClose text →
      ('\n' ∉ text →
        searchTag dotP deliveryOpen deliveryClose (deliveryOpen ++ text ++ deliveryClose) =
          some text) ∧
      ('\n' ∈ text →
        searchTag dotP deliveryOpen deliveryClose (deliveryOpen ++ text ++ deliveryClose) =
          none)) ∧
    (isolatedSpan productOpen productClose text →
      ('\n' ∉ text →
        searchTag dotP productOpen productClose (productOpen ++ text ++ productClose) =
          some text) ∧
      ('\n' ∈ text →
        searchTag dotP productOpen productClose (productOpen ++ text ++ productClose) =
          none)) ∧
    (isolatedSpan serialOpen serialClose text →
      ('\n' ∉ text →
        searchTag dotP serialOpen serialClose (serialOpen ++ text ++ serialClose) =
          some text) ∧
      ('\n' ∈ text →
        searchTag dotP serialOpen serialClose (serialOpen ++ text ++ serialClose) =
          none)) := by
  have hdot : ∀ (hnot : '\n' ∉ text), ∀ ch ∈ text, dotP ch = true := by
    intro hnot ch hc
    simp only [dotP, decide_eq_true_eq]
    intro hEq
    exact hnot (hEq ▸ hc)
  have hany : ∀ ch ∈ text, anyP ch = true := fun ch _ => rfl
  have hposNil : ∀ (o cl : List Char) (p : Char → Bool), o ≠ [] →
      findSub cl (text ++ cl) = some text.length → (∀ ch ∈ text, p ch = true) →
      searchTag p o cl (o ++ text ++ cl) = some text := by
    intro o cl p ho hcl hp
    have := searchTag_isolated_pos ho text [] hcl hp
    rwa [List.append_nil] at this
  refine ⟨?_, ?_, ?_, ?_, ?_, ?_⟩
  · intro b hiso
    exact searchTag_isolated_pos (by decide) text b hiso.1 hany
  · intro hiso
    exact hposNil _ _ _ (by decide) hiso.1 hany
  · intro hiso
    exact hposNil _ _ _ (by decide) hiso.1 hany
  · intro hiso
    refine ⟨fun hnot => hposNil _ _ _ (by decide) hiso.1 (hdot hnot), fun hmem => ?_⟩
    exact searchTag_isolated_none (by decide) text '\n' hiso.1 hiso.2 hmem (by decide)
  · intro hiso
    refine ⟨fun hnot => hposNil _ _ _ (by decide) hiso.1 (hdot hnot), fun hmem => ?_⟩
    exact searchTag_isolated_none (by decide) text '\n' hiso.1 hiso.2 hmem (by decide)
  · intro hiso
    refine ⟨fun hnot => hposNil _ _ _ (by decide) hiso.1 (hdot hnot), fun hmem => ?_⟩
    exact searchTag_isolated_none (by decide) text '\n' hiso.1 hiso.2 hmem (by decide)

/-- Witness for the amended C4: the line-group pattern extracts a span
with an embedded newline verbatim; the delivery-id pattern extracts a
newline-free span verbatim but yields no match on the same span with a
newline; and matching stops at the first closing tag even when more
text and another closing tag follow. -/
theorem C4_matching_amended_witness :
    searchTag anyP shipOpen shipClose
      (shipOpen ++ ('T' :: '\n' :: 'U' :: []) ++ shipClose) =
        some ('T' :: '\n' :: 'U' :: []) ∧
    searchTag anyP shipOpen shipClose
      (shipOpen ++ ('T' :: []) ++ shipClose ++ (('Z' :: []) ++ shipClose)) =
        some ('T' :: []) ∧
    searchTag dotP deliveryOpen deliveryClose
      (deliveryOpen ++ ('T' :: '1' :: []) ++ deliveryClose) = some ('T' :: '1' :: []) ∧
    searchTag dotP deliveryOpen deliveryClose
      (deliveryOpen ++ ('T' :: '\n' :: 'U' :: []) ++ deliveryClose) = none :=
  ⟨(C4_matching_amended ('T' :: '\n' :: 'U' :: [])).2.1 (by decide),
   (C4_matching_amended ('T' :: [])).1 (('Z' :: []) ++ shipClose) (by decide),
   ((C4_matching_amended ('T' :: '1' :: [])).2.2.2.1 (by decide)).1 (by decide),
   ((C4_matching_amended ('T' :: '\n' :: 'U' :: [])).2.2.2.1 (by decide)).2 (by decide)⟩

/-- C10: an unmatched line-group opening tag contributes nothing: the
output on the whole document equals the output on the document truncated
right after the last matched line-group closing tag (index
`lastMatchEnd`). -/
theorem C10_unclosed_tail (s : List Char)
    (_h : ∃ i, i < s.length ∧ lastMatchEnd anyP shipOpen shipClose s ≤ i ∧
      shipOpen.isPrefixOf (s.drop i) = true) :
    extract_data s = extract_data (s.take (lastMatchEnd anyP shipOpen shipClose s)) := by
  rw [extract_data_eq, extract_data_eq,
    ← findIter_take_lastMatchEnd (show shipOpen ≠ [] by decide) s.length s (le_refl _)]

/-- Witness for C10 at a document whose second line-group opening tag is
never closed. -/
theorem C10_unclosed_tail_witness :
    extract_data exDoc10 =
      extract_data (exDoc10.take (lastMatchEnd anyP shipOpen shipClose exDoc10)) :=
  C10_unclosed_tail exDoc10 ⟨65, by decide, by decide, by decide⟩

/-! ### Filesystem claims -/

/-- After overwriting, the destination holds exactly the new content. -/
lemma find?_setFile (files : List (FilePathM × List Char)) (p : FilePathM) (c : List Char) :
    (setFile files p c).find? (fun e => decide (e.1 = p)) = some (p, c) := by
  unfold setFile
  induction files with
  | nil => simp
  | cons e fs ih =>
    by_cases he : e.1 = p
    · rw [List.filter_cons, if_neg (by simp [he])]
      exact ih
    · rw [List.filter_cons, if_pos (by simp [he])]
      rw [List.cons_append, List.find?_cons,
        show decide (e.1 = p) = false from decide_eq_false he]
      exact ih

lemma lookupFile_setFile (dirs : List FilePathM) (files : List (FilePathM × List Char))
    (p : FilePathM) (c : List Char) :
    lookupFile { dirs := dirs, files := setFile files p c } p = some c := by
  unfold lookupFile
  rw [show ({ dirs := dirs, files := setFile files p c } : FileSys).files =
    setFile files p c from rfl, find?_setFile]
  rfl

/-- C6 counterexample: `EDIExtractor.save_to_csv` itself creates no
directory: with only the root present and destination
`out/results.csv`, it fails with a `DestinationWriteError` instead of
creating `out` and writing the file. -/
theorem C6_no_makedirs_counterexample :
    save_to_csv { dirs := [], files := [] } [] (["out", "results.csv"] : FilePathM) =
      Except.error (DestinationWriteError.parentMissing ["out", "results.csv"]) := rfl

/-- C6 amended: the directory creation lives in the GUI save handler,
not in `writeTable`: `EDIExtractorApp.save_to_csv` runs `os.makedirs`
on a missing parent directory first, so the write always succeeds, the
parent directory of the destination exists afterwards (when the path
has one), and the destination holds the serialised table.
`EDIExtractor.save_to_csv` alone fails when the parent is missing. -/
theorem C6_makedirs_amended (fs : FileSys) (results : List Record)
    (output_file : FilePathM) :
    ∃ fs2, app_save_to_csv fs results output_file = Except.ok fs2 ∧
      (parentDir output_file = [] ∨ parentDir output_file ∈ fs2.dirs) ∧
      lookupFile fs2 output_file = some (writeTableText results) := by
  simp only [app_save_to_csv, save_to_csv]
  by_cases h1 : parentDir output_file = []
  · rw [if_neg (show ¬(parentDir output_file ≠ [] ∧ parentDir output_file ∉ fs.dirs) from by
      simp [h1])]
    rw [if_pos (Or.inl h1)]
    exact ⟨_, rfl, Or.inl h1, lookupFile_setFile _ _ _ _⟩
  · by_cases h2 : parentDir output_file ∈ fs.dirs
    · rw [if_neg (show ¬(parentDir output_file ≠ [] ∧ parentDir output_file ∉ fs.dirs) from by
        simp [h2])]
      rw [if_pos (Or.inr h2)]
      exact ⟨_, rfl, Or.inr h2, lookupFile_setFile _ _ _ _⟩
    · rw [if_pos (show parentDir output_file ≠ [] ∧ parentDir output_file ∉ fs.dirs from
        ⟨h1, h2⟩)]
      have hmem : parentDir output_file ∈ (makedirs fs (parentDir output_file)).dirs := by
        unfold makedirs
        apply List.mem_append_right
        rw [List.mem_inits]
      rw [if_pos (Or.inr hmem)]
      exact ⟨_, rfl, Or.inr hmem, lookupFile_setFile _ _ _ _⟩

/-! ### CSV round-trip -/

/-- Reading a quoted-field body undoes quote doubling, up to the closing
quote. -/
lemma parseQuotedBody_escape (f rest : List Char) (hrest : rest.head? ≠ some '"') :
    parseQuotedBody (escapeQuotes f ++ ('"' :: rest)) = some (f, rest) := by
  induction f with
  | nil =>
    simp only [escapeQuotes, List.flatMap_nil, List.nil_append]
    cases rest with
    | nil => simp [parseQuotedBody]
    | cons r t =>
      have hr : ¬(r = '"') := by
        intro hEq
        exact hrest (by rw [hEq]; rfl)
      simp [parseQuotedBody, hr]
  | cons c f ih =>
    by_cases hc : c = '"'
    · subst hc
      have hexp : escapeQuotes ('"' :: f) ++ ('"' :: rest) =
          '"' :: '"' :: (escapeQuotes f ++ ('"' :: rest)) := by
        simp [escapeQuotes]
      rw [hexp]
      simp only [parseQuotedBody, if_pos rfl]
      rw [ih]
      rfl
    · have hexp : escapeQuotes (c :: f) ++ ('"' :: rest) =
          c :: (escapeQuotes f ++ ('"' :: rest)) := by
        simp [escapeQuotes, hc]
      rw [hexp, parseQuotedBody.eq_def]
      simp only [if_neg hc]
      rw [ih]
      rfl

/-- Reading an unquoted field stops exactly at the delimiter or line
terminator that follows it. -/
lemma parseUnquoted_exact (f rest : List Char)
    (hf : ∀ ch ∈ f, ¬(ch = ',' ∨ ch = '\r' ∨ ch = '\n'))
    (hrest : rest = [] ∨ ∃ c t, rest = c :: t ∧ (c = ',' ∨ c = '\r' ∨ c = '\n')) :
    parseUnquoted (f ++ rest) = (f, rest) := by
  induction f with
  | nil =>
    rcases hrest with rfl | ⟨c, t, rfl, hc⟩
    · simp [parseUnquoted]
    · simp [parseUnquoted, hc]
  | cons c f ih =>
    have hc := hf c (List.mem_cons_self c f)
    rw [List.cons_append]
    simp only [parseUnquoted, if_neg hc]
    rw [ih (fun ch hch => hf ch (List.mem_cons_of_mem c hch))]

/-- The quoting predicate, read back as character facts. -/
lemma not_special_of_not_needsQuoting {f : List Char} (h : needsQuoting f = false) :
    ∀ ch ∈ f, ¬(ch = ',') ∧ ¬(ch = '"') ∧ ¬(ch = '\r') ∧ ¬(ch = '\n') := by
  intro ch hch
  unfold needsQuoting at h
  rw [List.any_eq_false] at h
  have hfacts := h ch hch
  simp only [Bool.or_eq_true, decide_eq_true_eq, not_or] at hfacts
  tauto

/-- Reading one written field recovers it, whatever terminator
follows. -/
lemma parseField_quoteField (f rest : List Char)
    (hrest : rest = [] ∨ ∃ c t, rest = c :: t ∧ (c = ',' ∨ c = '\r')) :
    parseField (quoteField f ++ rest) = some (f, rest) := by
  cases hq : needsQuoting f with
  | true =>
    have hexp : quoteField f ++ rest = '"' :: (escapeQuotes f ++ ('"' :: rest)) := by
      simp [quoteField, hq]
    rw [hexp]
    have hhead : rest.head? ≠ some '"' := by
      rcases hrest with rfl | ⟨c, t, rfl, hc⟩
      · simp
      · rcases hc with rfl | rfl <;> simp
    cases hx : escapeQuotes f ++ ('"' :: rest) with
    | nil => simp at hx
    | cons x y =>
      rw [← hx]
      simp only [parseField, if_pos rfl]
      exact parseQuotedBody_escape f rest hhead
  | false =>
    have hspec := not_special_of_not_needsQuoting hq
    have hexp : quoteField f ++ rest = f ++ rest := by simp [quoteField, hq]
    rw [hexp]
    have hun : parseUnquoted (f ++ rest) = (f, rest) := by
      apply parseUnquoted_exact f rest
      · intro ch hch
        have := hspec ch hch
        tauto
      · rcases hrest with rfl | ⟨c, t, rfl, hc⟩
        · exact Or.inl rfl
        · exact Or.inr ⟨c, t, rfl, by tauto⟩
    cases f with
    | nil =>
      rcases hrest with rfl | ⟨c, t, rfl, hc⟩
      · simp [parseField]
      · have hcq : ¬(c = '"') := by rcases hc with rfl | rfl <;> simp
        simp only [List.nil_append] at hun ⊢
        simp only [parseField, if_neg hcq]
        rw [hun]
    | cons fh ft =>
      have hfh : ¬(fh = '"') := (hspec fh (List.mem_cons_self fh ft)).2.1
      rw [List.cons_append]
      simp only [parseField, if_neg hfh]
      rw [← List.cons_append, hun]


/-- A written row has at least as many characters (plus one) as it has
fields. -/
lemma formatRowBody_length (fields : List (List Char)) :
    fields.length ≤ (formatRowBody fields).length + 1 := by
  induction fields with
  | nil => simp
  | cons f fs ih =>
    cases fs with
    | nil => simp [formatRowBody]
    | cons f2 fs2 =>
      have hlen : (formatRowBody (f :: f2 :: fs2)).length =
          (quoteField f).length + 1 + (formatRowBody (f2 :: fs2)).length := by
        simp [formatRowBody]
        omega
      simp only [List.length_cons] at ih ⊢
      omega

/-- Reading one written row recovers its fields and stops right after
the row terminator. -/
lemma parseRowAux_formatRowBody :
    ∀ (fields : List (List Char)) (rest : List Char) (n : Nat), fields ≠ [] →
      fields.length ≤ n →
      parseRowAux n (formatRowBody fields ++ ('\r' :: '\n' :: rest)) =
        some (fields, rest) := by
  intro fields
  induction fields with
  | nil => intro rest n h _; exact absurd rfl h
  | cons f fs ih =>
    intro rest n _ hn
    cases fs with
    | nil =>
      obtain ⟨m, rfl⟩ : ∃ m, n = m + 1 := ⟨n - 1, by simp at hn; omega⟩
      show parseRowAux (m + 1) (quoteField f ++ ('\r' :: '\n' :: rest)) = some ([f], rest)
      simp only [parseRowAux]
      rw [parseField_quoteField f ('\r' :: '\n' :: rest)
        (Or.inr ⟨'\r', '\n' :: rest, rfl, Or.inr rfl⟩)]
      rfl
    | cons f2 fs2 =>
      obtain ⟨m, rfl⟩ : ∃ m, n = m + 1 := ⟨n - 1, by simp at hn; omega⟩
      have hassoc : formatRowBody (f :: f2 :: fs2) ++ ('\r' :: '\n' :: rest) =
          quoteField f ++ (',' :: (formatRowBody (f2 :: fs2) ++ ('\r' :: '\n' :: rest))) := by
        simp [formatRowBody]
      rw [hassoc]
      simp only [parseRowAux]
      rw [parseField_quoteField f
        (',' :: (formatRowBody (f2 :: fs2) ++ ('\r' :: '\n' :: rest)))
        (Or.inr ⟨',', formatRowBody (f2 :: fs2) ++ ('\r' :: '\n' :: rest), rfl, Or.inl rfl⟩)]
      show Option.map (fun pr => (f :: pr.1, pr.2))
        (parseRowAux m (formatRowBody (f2 :: fs2) ++ ('\r' :: '\n' :: rest))) =
        some (f :: f2 :: fs2, rest)
      rw [ih rest m (by simp) (by simp only [List.length_cons] at hn ⊢; omega)]
      rfl

/-- A written row is never shorter than two characters per row. -/
lemma rows_length_le_text (rows : List (List (List Char))) :
    rows.length ≤ ((rows.map formatRow).flatten).length := by
  induction rows with
  | nil => simp
  | cons r rs ih =>
    rw [List.map_cons, List.flatten_cons, List.length_append]
    have hfr : 2 ≤ (formatRow r).length := by
      simp [formatRow]
    simp only [List.length_cons]
    omega

/-- Reading the whole written text recovers every row. -/
lemma parseCsvAux_rows :
    ∀ (rows : List (List (List Char))) (n : Nat),
      (∀ r ∈ rows, r ≠ []) → rows.length ≤ n →
      parseCsvAux n ((rows.map formatRow).flatten) = some rows := by
  intro rows
  induction rows with
  | nil =>
    intro n _ _
    simp [parseCsvAux]
  | cons r rs ih =>
    intro n hne hn
    obtain ⟨m, rfl⟩ : ∃ m, n = m + 1 := ⟨n - 1, by simp at hn; omega⟩
    have hr : r ≠ [] := hne r (List.mem_cons_self r rs)
    rw [List.map_cons, List.flatten_cons]
    have hrowtext : formatRow r ++ (rs.map formatRow).flatten =
        formatRowBody r ++ ('\r' :: '\n' :: (rs.map formatRow).flatten) := by
      simp [formatRow]
    obtain ⟨ch, t, hch⟩ : ∃ ch t, formatRow r ++ (rs.map formatRow).flatten = ch :: t := by
      cases hfr : formatRow r with
      | nil =>
        have : (formatRow r).length = 0 := by rw [hfr]; rfl
        simp [formatRow] at this
      | cons x y => exact ⟨x, y ++ (rs.map formatRow).flatten, rfl⟩
    rw [hch]
    simp only [parseCsvAux]
    have hrow : parseRow (ch :: t) = some (r, (rs.map formatRow).flatten) := by
      rw [← hch]
      unfold parseRow
      rw [hrowtext]
      apply parseRowAux_formatRowBody r _ _ hr
      have hb := formatRowBody_length r
      simp only [List.length_append, List.length_cons]
      omega
    rw [hrow]
    show Option.map (fun rows => r :: rows) (parseCsvAux m ((rs.map formatRow).flatten)) =
      some (r :: rs)
    rw [ih m (fun x hx => hne x (List.mem_cons_of_mem r hx))
      (by simp only [List.length_cons] at hn; omega)]
    rfl

/-- C5: re-parsing the delimited text `save_to_csv` writes for
`extract_data content` yields the header row followed by the records'
fields, field by field, in the original order. -/
theorem C5_roundtrip (content : List Char) :
    parseCsv (writeTableText (extract_data content)) =
      some (csvHeader :: (extract_data content).map recordFields) := by
  have main : ∀ results : List Record,
      parseCsv (writeTableText results) = some (csvHeader :: results.map recordFields) := by
    intro results
    have hw : writeTableText results =
        (((csvHeader :: results.map recordFields)).map formatRow).flatten := by
      unfold writeTableText
      rw [List.map_cons, List.flatten_cons, List.map_map]
      rfl
    rw [hw]
    unfold parseCsv
    apply parseCsvAux_rows
    · intro r hr
      rcases List.mem_cons.mp hr with rfl | hr2
      · simp [csvHeader]
      · rw [List.mem_map] at hr2
        obtain ⟨rec, -, rfl⟩ := hr2
        simp [recordFields]
    · exact rows_length_le_text _
  exact main (extract_data content)

end ShipShape
